import Mathlib

/-!
Verification development for the sprout worktree manager
(apps/sprout/internal/sprout).  Go string values are embedded as
`List Char` (one element per rune; every character the embedded
functions compare against is ASCII, so byte positions and rune
positions coincide).  `String` arguments are converted with
`String.data` at the theorem boundary.
-/

namespace Sprout

/-- ASCII whitespace as trimmed by Go's strings.TrimSpace (the Unicode
space classes beyond ASCII never occur in the embedded comparisons). -/
def goWS (c : Char) : Bool :=
  c = ' ' || c = '\t' || c = '\n' || c = '\x0b' || c = '\x0c' || c = '\r'

/-- Drop a maximal trailing run of characters satisfying p
(the right-hand half of strings.Trim / strings.TrimSpace). -/
def dropTrailing (p : Char → Bool) : List Char → List Char
  | [] => []
  | c :: rest =>
    let r := dropTrailing p rest
    if r = [] && p c then [] else c :: r

/-- strings.TrimSpace: drop leading and trailing whitespace. -/
def trimSpace (l : List Char) : List Char :=
  dropTrailing goWS (l.dropWhile goWS)

/-- strings.Trim(s, cutset) for a cutset given as a predicate. -/
def trimChars (p : Char → Bool) (l : List Char) : List Char :=
  dropTrailing p (l.dropWhile p)

/-- strings.Contains: needle occurs as a contiguous substring of hay. -/
def containsList (hay needle : List Char) : Bool :=
  match hay with
  | [] => needle.isEmpty
  | _ :: rest => needle.isPrefixOf hay || containsList rest needle

/-- ASCII lowering used where Go applies strings.ToLower before
comparing against ASCII-only literals (codes 65..90 are A..Z). -/
def lowerChar (c : Char) : Char :=
  if 65 ≤ c.toNat && c.toNat ≤ 90 then Char.ofNat (c.toNat + 32) else c

def toLowerList (l : List Char) : List Char := l.map lowerChar

/-- Substring test after lowering, mirroring
strings.Contains(strings.ToLower(msg), sub). -/
def containsLower (msg : List Char) (sub : String) : Bool :=
  containsList (toLowerList msg) sub.data

/-- shouldRetryWorktreeAdd (manager.go): the error-message substrings
that make a failed `git worktree add` retry once after a prune. -/
def shouldRetryWorktreeAdd (msg : List Char) : Bool :=
  if containsLower msg "timed out" then true
  else if containsLower msg "already checked out" then true
  else if containsLower msg "already exists" then true
  else if containsLower msg "already registered" then true
  else if containsLower msg "unable to create" then true
  else if containsLower msg "cannot lock" then true
  else false

/-- shouldRetryWorktreeRemove (manager.go): the substrings that make a
failed `git worktree remove` retry once after a prune. -/
def shouldRetryWorktreeRemove (msg : List Char) : Bool :=
  if containsLower msg "timed out" then true
  else if containsLower msg "is locked" then true
  else if containsLower msg "cannot remove" then true
  else if containsLower msg "cannot lock" then true
  else false

/-- The substring set the specification claims for the add retry. -/
def claimedAddRetrySubstrings : List String :=
  ["timeout", "already checked out", "already exists",
   "already registered", "cannot lock", "cannot create"]

/-- The substring set the specification claims for the remove retry. -/
def claimedRemoveRetrySubstrings : List String :=
  ["timeout", "is locked", "cannot remove", "cannot lock"]

/-- Retry predicate exactly as the spec words it for add. -/
def claimedRetryAdd (msg : List Char) : Bool :=
  claimedAddRetrySubstrings.any (fun sub => containsLower msg sub)

/-- Retry predicate exactly as the spec words it for remove. -/
def claimedRetryRemove (msg : List Char) : Bool :=
  claimedRemoveRetrySubstrings.any (fun sub => containsLower msg sub)

/-- The substrings the code actually matches on add. -/
def actualAddRetrySubstrings : List String :=
  ["timed out", "already checked out", "already exists",
   "already registered", "unable to create", "cannot lock"]

/-- The substrings the code actually matches on remove. -/
def actualRemoveRetrySubstrings : List String :=
  ["timed out", "is locked", "cannot remove", "cannot lock"]

/-- Go strconv digit run: all-digit parse of a nonempty run, else none. -/
def parseDigits : List Char → Option Nat
  | [] => none
  | l =>
    if l.all (fun c => '0' ≤ c && c ≤ '9') then
      some (l.foldl (fun acc c => acc * 10 + (c.toNat - 48)) 0)
    else none

/-- strconv.Atoi on a 64-bit platform: optional sign, decimal digits,
error when empty, malformed, or out of int64 range. -/
def atoi (l : List Char) : Option Int :=
  match l with
  | '+' :: rest =>
    match parseDigits rest with
    | some n => if n ≤ 9223372036854775807 then some (Int.ofNat n) else none
    | none => none
  | '-' :: rest =>
    match parseDigits rest with
    | some n => if n ≤ 9223372036854775808 then some (-(Int.ofNat n)) else none
    | none => none
  | _ =>
    match parseDigits l with
    | some n => if n ≤ 9223372036854775807 then some (Int.ofNat n) else none
    | none => none

/-- gitWorktreeCommandTimeout (manager.go), in seconds; the argument is
the raw value of SPROUT_GIT_WORKTREE_TIMEOUT_SECONDS ("" when unset). -/
def gitWorktreeCommandTimeout (envRaw : List Char) : Int :=
  let defaultSeconds : Int := 45
  let minSeconds : Int := 5
  let maxSeconds : Int := 600
  let raw := trimSpace envRaw
  if raw = [] then defaultSeconds
  else
    match atoi raw with
    | none => defaultSeconds
    | some seconds =>
      let seconds := if seconds < minSeconds then minSeconds else seconds
      let seconds := if seconds > maxSeconds then maxSeconds else seconds
      seconds

/-- WorktreeDirty (manager.go): `git status --porcelain
--untracked-files=all` output, or none when the subprocess failed.
Any error reports the worktree as clean. -/
def WorktreeDirty (statusResult : Option (List Char)) : Bool :=
  match statusResult with
  | none => false
  | some out => !(trimSpace out).isEmpty

/-- The dirty gate at the top of Remove (manager.go): true means Remove
refuses with the uncommitted-changes error. -/
def removeRefusesDirty (force : Bool) (statusResult : Option (List Char)) : Bool :=
  !force && WorktreeDirty statusResult

/-- Worker for collapseRuns: inRun records whether the current
position continues a run whose replacement was already emitted. -/
def collapseRunsAux (p : Char → Bool) (r : Char) (inRun : Bool) : List Char → List Char
  | [] => []
  | c :: rest =>
    if p c then
      if inRun then collapseRunsAux p r true rest
      else r :: collapseRunsAux p r true rest
    else c :: collapseRunsAux p r false rest

/-- regexp.ReplaceAllString for a pattern of the form `[class]+` with a
one-character replacement: each maximal run of characters satisfying p
becomes the single character r. -/
def collapseRuns (p : Char → Bool) (r : Char) (l : List Char) : List Char :=
  collapseRunsAux p r false l

/-- The character class of slugBadRe: not a lowercase ASCII letter
(codes 97..122), digit (48..57), slash, or dash. -/
def slugBad (c : Char) : Bool :=
  !((97 ≤ c.toNat && c.toNat ≤ 122) || (48 ≤ c.toNat && c.toNat ≤ 57) ||
    c = '/' || c = '-')

/-- Slugify (manager.go): lowercase, underscores and spaces to dashes,
slugBadRe runs to a dash, collapse slash and dash runs, trim '-' and
'/', error when the normalized string is empty.  (strings.ToLower is
embedded as the ASCII mapping; a non-ASCII letter is mapped into a dash
by the slugBadRe pass under both readings.) -/
def normalizeSlug (input : List Char) : List Char :=
  let slug := input.map lowerChar
  let slug := slug.map (fun c => if c = '_' then '-' else c)
  let slug := slug.map (fun c => if c = ' ' then '-' else c)
  let slug := collapseRuns slugBad '-' slug
  let slug := collapseRuns (fun c => c = '/') '/' slug
  let slug := collapseRuns (fun c => c = '-') '-' slug
  trimChars (fun c => c = '-' || c = '/') slug

def Slugify (input : List Char) : Option (List Char) :=
  let slug := normalizeSlug input
  if slug = [] then none else some slug

/-- No two adjacent characters of the list both satisfy q (used to
state the no-double-dash and no-double-slash closure facts). -/
def noDouble (q : Char → Bool) : List Char → Bool
  | [] => true
  | a :: rest =>
    (match rest.head? with
     | none => true
     | some b => !(q a && q b)) && noDouble q rest

/-- The character class of safeNameRe: not an ASCII letter (65..90,
97..122), digit (48..57), dot, underscore, or dash. -/
def safeNameBad (c : Char) : Bool :=
  !((65 ≤ c.toNat && c.toNat ≤ 90) || (97 ≤ c.toNat && c.toNat ≤ 122) ||
    (48 ≤ c.toNat && c.toNat ≤ 57) || c = '.' || c = '_' || c = '-')

/-- safeName (manager.go): safeNameRe runs to a dash, collapse dash
runs, trim dashes, "default" when empty. -/
def safeName (value : List Char) : List Char :=
  let s := collapseRuns safeNameBad '-' value
  let s := collapseRuns (fun c => c = '-') '-' s
  let s := trimChars (fun c => c = '-') s
  if s = [] then "default".data else s

/-- filepath.Base on a unix path. -/
def filepathBase (path : List Char) : List Char :=
  if path = [] then ['.']
  else
    let p := dropTrailing (fun c => c = '/') path
    let p := (p.reverse.takeWhile (fun c => c ≠ '/')).reverse
    if p = [] then ['/'] else p

/-- tmuxSessionName (manager.go) as a function of the session-name
prefix and the repo name, the two subprocess-derived inputs. -/
def tmuxSessionName (sessionPre repoName : List Char) : List Char :=
  let repo := safeName repoName
  let p := safeName sessionPre
  if p = [] then repo else p ++ '-' :: repo

/-- The branch-or-basename token of tmuxWorktreeSessionNameFrom. -/
def wtSessionToken (branch wtPath : List Char) : List Char :=
  let token := trimSpace branch
  if token = [] then filepathBase wtPath else token

/-- tmuxWorktreeSessionNameFrom (manager.go) before the 100-character
truncation. -/
def wtSessionNameFull (sessionPre repoName branch wtPath : List Char) : List Char :=
  tmuxSessionName sessionPre repoName ++ '-' :: safeName (wtSessionToken branch wtPath)

/-- tmuxWorktreeSessionNameFrom (manager.go): repo session name, a
dash, the safe branch token (basename of the path when the branch is
blank), truncated to 100 characters. -/
def tmuxWorktreeSessionNameFrom (sessionPre repoName branch wtPath : List Char) :
    List Char :=
  let base := tmuxSessionName sessionPre repoName
  let suffix := safeName (wtSessionToken branch wtPath)
  if suffix = [] then base
  else
    let name := base ++ '-' :: suffix
    if 100 < name.length then name.take 100 else name

/-- The scrollback depth S computed by tmuxCapturePaneWithCursor
(manager.go).  `lines` is the requested count; `meta` is the parsed
pane_height when the display-message call succeeded with four numeric
fields, none otherwise. -/
def tmuxCapturePaneLines (lines : Int) (meta : Option Int) : Int :=
  let paneHeight : Int := if lines ≤ 0 then 120 else lines
  let paneHeight : Int :=
    match meta with
    | some ph => if 0 < ph then ph else paneHeight
    | none => paneHeight
  let lines := if lines ≤ 0 then paneHeight else lines
  if lines < paneHeight then paneHeight else lines

/-- Result of os.Stat at a path. -/
inductive StatRes
  | ok
  | notExist
  | err (msg : List Char)

/-- The external world consulted by the worktree-creation functions:
git branch probes, os.Stat, os.MkdirAll, and the outcome of each of
the at-most-two `git worktree add` attempts, plus the untracked-copy
outcome used by NewWorktree (none means success). -/
structure GitEnv where
  branchExistsFn : List Char → Bool
  statFn : List Char → StatRes
  mkdirAllRes : Option (List Char)
  addAttempt1 : Option (List Char)
  addAttempt2 : Option (List Char)
  copyRes : Option (List Char)

/-- runGitWorktreeAdd (manager.go): run the add; when the error matches
the retry substrings, prune and run it again. -/
def runGitWorktreeAdd (env : GitEnv) : Option (List Char) :=
  match env.addAttempt1 with
  | none => none
  | some e => if shouldRetryWorktreeAdd e then env.addAttempt2 else some e

/-- CreateWorktreeWithBranch (manager.go).  First component: whether
`git worktree add` was invoked; second: the error, none on success.
The base branch only feeds the argv and is not modeled. -/
def CreateWorktreeWithBranch (env : GitEnv) (branch wtPath : List Char) :
    Bool × Option (List Char) :=
  if env.branchExistsFn branch then
    (false, some ("branch already exists: ".data ++ branch))
  else
    match env.statFn wtPath with
    | .ok => (false, some ("target path already exists: ".data ++ wtPath))
    | .err e => (false, some e)
    | .notExist =>
      match env.mkdirAllRes with
      | some e => (false, some e)
      | none => (true, runGitWorktreeAdd env)

/-- CreateWorktreeFromExisting (manager.go).  Both branches of the
local-versus-remote probe invoke the same `git worktree add`. -/
def CreateWorktreeFromExisting (env : GitEnv) (branch wtPath : List Char) :
    Bool × Option (List Char) :=
  match env.statFn wtPath with
  | .ok => (false, some ("target path already exists: ".data ++ wtPath))
  | .err e => (false, some e)
  | .notExist =>
    match env.mkdirAllRes with
    | some e => (false, some e)
    | none =>
      if env.branchExistsFn branch then (true, runGitWorktreeAdd env)
      else (true, runGitWorktreeAdd env)

/-- The existing-branch path of NewWorktree (manager.go) with
Launch=false: create from existing, then copy untracked files, then
return the computed worktree path. -/
def newWorktreeFromExistingResult (env : GitEnv) (branch wtPath : List Char) :
    Except (List Char) (List Char) :=
  match (CreateWorktreeFromExisting env branch wtPath).2 with
  | some e => .error e
  | none =>
    match env.copyRes with
    | some e => .error e
    | none => .ok wtPath

/-- Last path component (after the final slash). -/
def lastComponent (l : List Char) : List Char :=
  (l.reverse.takeWhile (fun c => c ≠ '/')).reverse

/-- Modelled from the spec: one compiled copy-exclusion pattern applied
to a relative path.  The matcher function shouldExcludeCopyPath is
absent from the provided sources (only its test
TestCopyUntrackedExcludeMatch appears); the spec gives four pattern
classes: a bare name matches the path itself and anything under it, a
glob `dist/**` matches anything under the prefix, a wildcard `*.log`
matches by basename suffix, and a trailing-slash `tmp/` is a prefix up
to the slash. -/
def matchesExcludePat (pat rel : List Char) : Bool :=
  if ['/', '*', '*'].isSuffixOf pat then
    let pre := pat.dropLast.dropLast.dropLast
    rel = pre || (pre ++ ['/']).isPrefixOf rel
  else if ['/'].isSuffixOf pat then
    let pre := pat.dropLast
    rel = pre || (pre ++ ['/']).isPrefixOf rel
  else if pat.head? = some '*' then
    (pat.drop 1).isSuffixOf (lastComponent rel)
  else
    rel = pat || (pat ++ ['/']).isPrefixOf rel

/-- Modelled from the spec: shouldExcludeCopyPath over the compiled
pattern list of copy_untracked_exclude. -/
def shouldExcludeCopyPath (pats : List String) (rel : String) : Bool :=
  pats.any (fun pat => matchesExcludePat pat.data rel.data)

/-- Modelled from the spec: the untracked/ignored copy of NewWorktree
restricted to its path selection — every candidate relative path whose
compiled exclusion match fires is skipped, the rest are copied, so the
result is exactly the set of relative paths present in the
destination. -/
def copyUntrackedDestination (pats : List String) (candidates : List String) :
    List String :=
  candidates.filter (fun rel => !shouldExcludeCopyPath pats rel)

/-- Consume a CSI escape body: drop characters up to and including the
final byte in 0x40..0x7e (stripANSI, ui.go). -/
def consumeCSI : List Char → List Char
  | [] => []
  | c :: rest =>
    if 0x40 ≤ c.toNat && c.toNat ≤ 0x7e then rest else consumeCSI rest

/-- Consume an OSC escape body: drop characters until a BEL, or an ESC
immediately followed by a backslash (stripANSI, ui.go). -/
def consumeOSC : List Char → List Char
  | [] => []
  | c :: rest =>
    if c.toNat = 7 then rest
    else if c.toNat = 0x1b && rest.head? = some '\\' then rest.drop 1
    else consumeOSC rest

theorem consumeCSI_length_le (l : List Char) : (consumeCSI l).length ≤ l.length := by
  induction l with
  | nil => simp [consumeCSI]
  | cons c rest ih =>
    simp only [consumeCSI]
    split
    · simp
    · exact Nat.le_succ_of_le ih

theorem consumeOSC_length_le (l : List Char) : (consumeOSC l).length ≤ l.length := by
  induction l with
  | nil => simp [consumeOSC]
  | cons c rest ih =>
    simp only [consumeOSC]
    split
    · simp
    · split
      · simp only [List.length_drop, List.length_cons]
        omega
      · exact Nat.le_succ_of_le ih

/-- stripANSI (ui.go): drop ESC-introduced escape sequences, keeping
ordinary characters.  The byte-level Go scan and this rune-level scan
agree because every terminator tested for is ASCII. -/
def stripANSI : List Char → List Char
  | [] => []
  | c :: rest =>
    if c.toNat = 0x1b then
      if rest = [] then []
      else if rest.head? = some '[' then stripANSI (consumeCSI (rest.drop 1))
      else if rest.head? = some ']' then stripANSI (consumeOSC (rest.drop 1))
      else stripANSI (rest.drop 1)
    else c :: stripANSI rest
termination_by l => l.length
decreasing_by
  · have h1 := consumeCSI_length_le (rest.drop 1)
    have h2 : (rest.drop 1).length ≤ rest.length := by
      simp only [List.length_drop]
      omega
    simp only [List.length_cons]
    omega
  · have h1 := consumeOSC_length_le (rest.drop 1)
    have h2 : (rest.drop 1).length ≤ rest.length := by
      simp only [List.length_drop]
      omega
    simp only [List.length_cons]
    omega
  · have h2 : (rest.drop 1).length ≤ rest.length := by
      simp only [List.length_drop]
      omega
    simp only [List.length_cons]
    omega
  · simp

/-- strings.Split on a newline. -/
def splitLines : List Char → List (List Char)
  | [] => [[]]
  | c :: rest =>
    if c = '\n' then [] :: splitLines rest
    else
      match splitLines rest with
      | [] => [[c]]
      | l :: ls => (c :: l) :: ls

/-- The whitespace class of Go regexp, as in the agent prompt
patterns. -/
def reWS (c : Char) : Bool :=
  c = '\t' || c = '\n' || c = '\x0c' || c = '\r' || c = ' '

/-- The alternation of prompt tokens in agentPromptOnlyRe and
agentPromptInputRe (ui.go). -/
def promptTokens : List (List Char) :=
  [">".data, ">>".data, ">>>".data, "$".data, "#".data, ":".data,
   "›".data, "❯".data, "➜".data]

/-- agentPromptOnlyRe: a prompt token followed only by whitespace. -/
def agentPromptOnlyRe (l : List Char) : Bool :=
  promptTokens.any (fun t => t.isPrefixOf l && (l.drop t.length).all reWS)

/-- agentPromptInputRe: a prompt token, at least one whitespace
character, then anything. -/
def agentPromptInputRe (l : List Char) : Bool :=
  promptTokens.any (fun t =>
    t.isPrefixOf l &&
      match l.drop t.length with
      | [] => false
      | c :: _ => reWS c)

/-- The per-line ready test of agentReadyForInstruction (ui.go), in the
order the code checks it. -/
def agentReadyLine (line : List Char) : Bool :=
  let lower := toLowerList line
  if containsList lower "for shortcuts".data ||
      containsList lower "context left".data then true
  else if agentPromptOnlyRe line then true
  else if containsList line "█".data && agentPromptInputRe line then true
  else if containsList lower "awaiting your input".data ||
      containsList lower "waiting for your input".data ||
      containsList lower "ready for your next instruction".data ||
      containsList lower "what would you like to do next".data ||
      containsList lower "enter your prompt".data then true
  else false

/-- The scanning loop of agentReadyForInstruction: walk the lines from
the end, skip blank lines, and test at most twelve non-empty trimmed
lines.  The first argument is the reversed line list, the second the
count of non-empty lines already seen. -/
def agentReadyScan : List (List Char) → Nat → Bool
  | [], _ => false
  | l :: rest, seen =>
    if 12 ≤ seen then false
    else
      let line := trimSpace l
      if line = [] then agentReadyScan rest seen
      else agentReadyLine line || agentReadyScan rest (seen + 1)

/-- agentReadyForInstruction (ui.go): strip ANSI, normalize carriage
returns to newlines, split into lines, scan the last up-to-12
non-empty lines for a ready marker. -/
def agentReadyForInstruction (output : List Char) : Bool :=
  let plain := stripANSI output
  let lines := splitLines (plain.map (fun c => if c = '\r' then '\n' else c))
  agentReadyScan lines.reverse 0

/-- The spec's reading of the classifier: take the last up-to-12
non-empty (after trimming) lines and classify ready when any of them
matches the prompt-only pattern, or contains the block-glyph cursor
overlay and matches the prompt-with-text pattern, or contains one of
the seven case-insensitive ready substrings. -/
def agentReadySpecLine (line : List Char) : Bool :=
  agentPromptOnlyRe line ||
  (containsList line "█".data && agentPromptInputRe line) ||
  (["for shortcuts", "context left", "awaiting your input",
    "waiting for your input", "ready for your next instruction",
    "what would you like to do next", "enter your prompt"].any
      (fun s => containsList (toLowerList line) s.data))

/-- The spec's reading of agentReadyForInstruction as a whole. -/
def agentReadySpec (output : List Char) : Bool :=
  let plain := stripANSI output
  let lines := splitLines (plain.map (fun c => if c = '\r' then '\n' else c))
  let window :=
    (((lines.map trimSpace).filter (fun l => l ≠ [])).reverse.take 12)
  window.any agentReadySpecLine

/-! Theorems. -/

theorem safeName_ne_nil (v : List Char) : safeName v ≠ [] := by
  simp only [safeName]
  split
  · decide
  · assumption

theorem tmuxWorktreeSessionNameFrom_eq (sp rn b p : List Char) :
    tmuxWorktreeSessionNameFrom sp rn b p =
      if 100 < (wtSessionNameFull sp rn b p).length
      then (wtSessionNameFull sp rn b p).take 100
      else wtSessionNameFull sp rn b p := by
  simp only [tmuxWorktreeSessionNameFrom, wtSessionNameFull]
  rw [if_neg (safeName_ne_nil _)]

/-- C10: when the porcelain status subprocess fails, WorktreeDirty
reports clean, so Remove's dirty gate does not refuse even without the
force flag and removal proceeds. -/
theorem worktreeDirty_error_reports_clean :
    WorktreeDirty none = false ∧ ∀ force, removeRefusesDirty force none = false := by
  refine ⟨rfl, ?_⟩
  intro force
  cases force <;> rfl

/-- C5: the worktree add/remove timeout is 45 s when the trimmed
environment value fails to parse as an integer (unset, blank, or
non-numeric), and otherwise the parsed value clamped to [5 s, 600 s];
in particular 2 clamps to 5, 10000 clamps to 600, and 120 passes
through. -/
theorem gitWorktreeCommandTimeout_clamp (raw : List Char) :
    gitWorktreeCommandTimeout raw =
      (match atoi (trimSpace raw) with
       | none => 45
       | some n => max 5 (min 600 n)) ∧
    gitWorktreeCommandTimeout "2".data = 5 ∧
    gitWorktreeCommandTimeout "10000".data = 600 ∧
    gitWorktreeCommandTimeout "120".data = 120 ∧
    gitWorktreeCommandTimeout "".data = 45 ∧
    gitWorktreeCommandTimeout "abc".data = 45 := by
  refine ⟨?_, by decide, by decide, by decide, by decide, by decide⟩
  simp only [gitWorktreeCommandTimeout]
  by_cases h : trimSpace raw = []
  · rw [if_pos h, h]
    rfl
  · rw [if_neg h]
    cases ha : atoi (trimSpace raw) with
    | none => rfl
    | some n =>
      simp only [Int.max_def, Int.min_def]
      split_ifs <;> omega

/-- C4 counterexample: the spec's substring set does not match the
code: a message containing "cannot create" (in the claimed add set)
does not retry, and a message containing "timeout" but not "timed out"
(claimed for both add and remove) does not retry either. -/
theorem retry_substring_claim_false :
    claimedRetryAdd "cannot create".data = true ∧
    shouldRetryWorktreeAdd "cannot create".data = false ∧
    claimedRetryRemove "timeout".data = true ∧
    shouldRetryWorktreeRemove "timeout".data = false := by decide

/-- C4 amended: the retry heuristic fires exactly on the code's
substring sets — lowercased add messages containing one of "timed
out", "already checked out", "already exists", "already registered",
"unable to create", "cannot lock"; lowercased remove messages
containing one of "timed out", "is locked", "cannot remove", "cannot
lock" — and on no other message. -/
theorem shouldRetry_matches_actual_sets (msg : List Char) :
    shouldRetryWorktreeAdd msg =
      actualAddRetrySubstrings.any (fun sub => containsLower msg sub) ∧
    shouldRetryWorktreeRemove msg =
      actualRemoveRetrySubstrings.any (fun sub => containsLower msg sub) := by
  constructor
  · simp only [shouldRetryWorktreeAdd, actualAddRetrySubstrings, List.any_cons,
      List.any_nil]
    cases containsLower msg "timed out" <;>
      cases containsLower msg "already checked out" <;>
      cases containsLower msg "already exists" <;>
      cases containsLower msg "already registered" <;>
      cases containsLower msg "unable to create" <;>
      cases containsLower msg "cannot lock" <;> rfl
  · simp only [shouldRetryWorktreeRemove, actualRemoveRetrySubstrings, List.any_cons,
      List.any_nil]
    cases containsLower msg "timed out" <;>
      cases containsLower msg "is locked" <;>
      cases containsLower msg "cannot remove" <;>
      cases containsLower msg "cannot lock" <;> rfl

/-- C7 counterexample: with 200 lines requested and a reported pane
height of 50, the capture depth is 200, in violation of the claimed
S ≤ 120 cap. -/
theorem tmuxCapturePaneLines_cap_violated :
    tmuxCapturePaneLines 200 (some 50) = 200 ∧
    ¬(tmuxCapturePaneLines 200 (some 50) ≤ 120) := by decide

/-- C7 amended: the capture depth is exactly max(requested,
paneHeight) when the multiplexer reports a positive pane_height, with
no upper cap; 120 is only the fallback pane height used when the
report is unavailable (and then the depth is 120 for non-positive
requests and the request itself otherwise). -/
theorem tmuxCapturePaneLines_max (req ph : Int) (hph : 0 < ph) :
    tmuxCapturePaneLines req (some ph) = max req ph ∧
    tmuxCapturePaneLines req none = (if req ≤ 0 then 120 else req) := by
  constructor
  · simp only [tmuxCapturePaneLines, Int.max_def]
    split_ifs <;> omega
  · simp only [tmuxCapturePaneLines]
    split_ifs <;> omega

theorem tmuxCapturePaneLines_max_witness :
    (0 : Int) < 50 ∧
    tmuxCapturePaneLines 200 (some 50) = max 200 50 ∧
    tmuxCapturePaneLines 200 none = (if (200 : Int) ≤ 0 then 120 else 200) :=
  ⟨by decide, (tmuxCapturePaneLines_max 200 50 (by decide)).1,
    (tmuxCapturePaneLines_max 200 50 (by decide)).2⟩

/-- C1: evaluated at the state the claim describes — the second of two
consecutive NewWorktree invocations for the same existing branch, when
the first has already created the working copy at the computed path —
the code returns the error "target path already exists" instead of the
claimed no-op returning the existing path (the first conjunct shows
the first call succeeding and producing that path; the repository's
own test TestNewWorktreeFromExistingReturnsExistingWorktreePath
expects the call to succeed). -/
theorem newWorktree_fromExisting_second_call_errors :
    newWorktreeFromExistingResult
        ⟨fun _ => true, fun _ => .notExist, none, none, none, none⟩
        "feature/existing".data "/repo.worktrees/feature/existing".data =
      .ok "/repo.worktrees/feature/existing".data ∧
    newWorktreeFromExistingResult
        ⟨fun _ => true, fun _ => .ok, none, none, none, none⟩
        "feature/existing".data "/repo.worktrees/feature/existing".data =
      .error ("target path already exists: /repo.worktrees/feature/existing".data) := by
  constructor
  · rfl
  · rfl

/-- C8: CreateWorktreeWithBranch errors without invoking `git worktree
add` when the branch already exists, likewise when the target path
already exists, and reaches the add exactly when both preconditions
hold and the parent directory was ensured. -/
theorem CreateWorktreeWithBranch_guards (env : GitEnv) (b p : List Char) :
    (env.branchExistsFn b = true →
      CreateWorktreeWithBranch env b p =
        (false, some ("branch already exists: ".data ++ b))) ∧
    (env.branchExistsFn b = false → env.statFn p = .ok →
      CreateWorktreeWithBranch env b p =
        (false, some ("target path already exists: ".data ++ p))) ∧
    (env.branchExistsFn b = false → env.statFn p = .notExist →
      env.mkdirAllRes = none →
      (CreateWorktreeWithBranch env b p).1 = true) := by
  refine ⟨?_, ?_, ?_⟩
  · intro h
    simp [CreateWorktreeWithBranch, h]
  · intro h h2
    simp [CreateWorktreeWithBranch, h, h2]
  · intro h h2 h3
    simp [CreateWorktreeWithBranch, h, h2, h3]

theorem CreateWorktreeWithBranch_guards_witness :
    CreateWorktreeWithBranch
        ⟨fun _ => true, fun _ => .notExist, none, none, none, none⟩
        "b".data "/p".data =
      (false, some ("branch already exists: ".data ++ "b".data)) ∧
    CreateWorktreeWithBranch
        ⟨fun _ => false, fun _ => .ok, none, none, none, none⟩
        "b".data "/p".data =
      (false, some ("target path already exists: ".data ++ "/p".data)) ∧
    (CreateWorktreeWithBranch
        ⟨fun _ => false, fun _ => .notExist, none, none, none, none⟩
        "b".data "/p".data).1 = true :=
  ⟨(CreateWorktreeWithBranch_guards
      ⟨fun _ => true, fun _ => .notExist, none, none, none, none⟩
      "b".data "/p".data).1 rfl,
   (CreateWorktreeWithBranch_guards
      ⟨fun _ => false, fun _ => .ok, none, none, none, none⟩
      "b".data "/p".data).2.1 rfl rfl,
   (CreateWorktreeWithBranch_guards
      ⟨fun _ => false, fun _ => .notExist, none, none, none, none⟩
      "b".data "/p".data).2.2 rfl rfl rfl⟩

/-- C2 (matcher modelled from the spec): every path the copy places in
the destination fails the exclusion match, and on the spec's concrete
configuration the destination omits build, build/output/app,
dist/assets/x, tmp/cache, logs/app.log while keeping notes/logs.txt,
src/build-ing, builds/app. -/
theorem copyUntracked_exclusion :
    (∀ pats cands, (copyUntrackedDestination pats cands).all
        (fun rel => !shouldExcludeCopyPath pats rel) = true) ∧
    (let pats := ["build", "dist/**", "*.log", "tmp/"]
     let dst := copyUntrackedDestination pats
       ["build", "build/output/app", "builds/app", "dist/assets/x",
        "logs/app.log", "notes/logs.txt", "src/build-ing", "tmp/cache"]
     ("build" ∉ dst) ∧ ("build/output/app" ∉ dst) ∧ ("dist/assets/x" ∉ dst) ∧
     ("tmp/cache" ∉ dst) ∧ ("logs/app.log" ∉ dst) ∧
     ("notes/logs.txt" ∈ dst) ∧ ("src/build-ing" ∈ dst) ∧ ("builds/app" ∈ dst)) := by
  constructor
  · intro pats cands
    simp only [copyUntrackedDestination, List.all_eq_true]
    intro x hx
    exact (List.mem_filter.mp hx).2
  · decide

/-- C3 counterexample: the distinct branches a/b and a-b of the same
repository produce the same multiplexer session name, refuting the
claimed injectivity over distinct branch names. -/
theorem tmuxWorktreeSessionName_collision :
    ("a/b" : String) ≠ "a-b" ∧
    tmuxWorktreeSessionNameFrom "sprout".data "repo".data "a/b".data "/p1".data =
      tmuxWorktreeSessionNameFrom "sprout".data "repo".data "a-b".data "/p2".data := by
  decide

/-- C3 amended: the session name is the deterministic function
repo-session-name + dash + safe branch token truncated to 100
characters — so its length never exceeds 100, and two working copies
get distinct names provided their safe tokens differ and neither name
hits the truncation cap (branches whose safe tokens coincide, such as
a/b versus a-b, collide). -/
theorem tmuxWorktreeSessionName_cap_and_uniqueness (sp rn b1 p1 b2 p2 : List Char) :
    (tmuxWorktreeSessionNameFrom sp rn b1 p1).length ≤ 100 ∧
    (safeName (wtSessionToken b1 p1) ≠ safeName (wtSessionToken b2 p2) →
      (wtSessionNameFull sp rn b1 p1).length ≤ 100 →
      (wtSessionNameFull sp rn b2 p2).length ≤ 100 →
      tmuxWorktreeSessionNameFrom sp rn b1 p1 ≠
        tmuxWorktreeSessionNameFrom sp rn b2 p2) := by
  constructor
  · rw [tmuxWorktreeSessionNameFrom_eq]
    split
    · simp [List.length_take]
    · omega
  · intro hne h1 h2
    rw [tmuxWorktreeSessionNameFrom_eq, tmuxWorktreeSessionNameFrom_eq,
      if_neg (by omega), if_neg (by omega)]
    intro heq
    apply hne
    simp only [wtSessionNameFull] at heq
    have h3 := List.append_cancel_left heq
    injection h3

theorem tmuxWorktreeSessionName_cap_and_uniqueness_witness :
    safeName (wtSessionToken "x".data "/p1".data) ≠
      safeName (wtSessionToken "y".data "/p2".data) ∧
    (wtSessionNameFull "sprout".data "repo".data "x".data "/p1".data).length ≤ 100 ∧
    (wtSessionNameFull "sprout".data "repo".data "y".data "/p2".data).length ≤ 100 ∧
    tmuxWorktreeSessionNameFrom "sprout".data "repo".data "x".data "/p1".data ≠
      tmuxWorktreeSessionNameFrom "sprout".data "repo".data "y".data "/p2".data :=
  ⟨by decide, by decide, by decide,
   (tmuxWorktreeSessionName_cap_and_uniqueness "sprout".data "repo".data
      "x".data "/p1".data "y".data "/p2".data).2 (by decide) (by decide) (by decide)⟩

theorem agentReadyScan_eq (ls : List (List Char)) (seen : Nat) :
    agentReadyScan ls seen =
      (((ls.map trimSpace).filter (fun l => l ≠ [])).take (12 - seen)).any
        agentReadyLine := by
  induction ls generalizing seen with
  | nil => simp [agentReadyScan]
  | cons l rest ih =>
    simp only [agentReadyScan, List.map_cons, List.filter_cons]
    by_cases h12 : 12 ≤ seen
    · rw [if_pos h12]
      have h0 : 12 - seen = 0 := by omega
      rw [h0]
      simp
    · rw [if_neg h12]
      by_cases hl : trimSpace l = []
      · rw [if_pos hl, hl]
        simpa using ih seen
      · rw [if_neg hl]
        have hq : (decide (trimSpace l ≠ [])) = true := by
          simpa using hl
        rw [hq]
        simp only [if_true]
        have hsucc : 12 - seen = (12 - (seen + 1)) + 1 := by omega
        rw [hsucc, List.take_succ_cons, List.any_cons, ih (seen + 1)]

theorem agentReadyLine_eq_spec (l : List Char) :
    agentReadyLine l = agentReadySpecLine l := by
  simp only [agentReadyLine, agentReadySpecLine, List.any_cons, List.any_nil]
  generalize containsList (toLowerList l) "for shortcuts".data = a1
  generalize containsList (toLowerList l) "context left".data = a2
  generalize agentPromptOnlyRe l = b1
  generalize containsList l "█".data = b2
  generalize agentPromptInputRe l = b3
  generalize containsList (toLowerList l) "awaiting your input".data = a3
  generalize containsList (toLowerList l) "waiting for your input".data = a4
  generalize containsList (toLowerList l) "ready for your next instruction".data = a5
  generalize containsList (toLowerList l) "what would you like to do next".data = a6
  generalize containsList (toLowerList l) "enter your prompt".data = a7
  revert a1 a2 b1 b2 b3 a3 a4 a5 a6 a7
  decide

/-- C9: the ready-vs-busy classifier equals the spec's reading — strip
ANSI, take the last up-to-12 non-empty trimmed lines, and report ready
exactly when one of them matches the prompt-only pattern, or contains
the block-glyph cursor overlay and matches the prompt-with-text
pattern, or contains one of the seven case-insensitive ready
substrings. -/
theorem agentReady_classifier (output : List Char) :
    agentReadyForInstruction output = agentReadySpec output := by
  simp only [agentReadyForInstruction, agentReadySpec]
  rw [agentReadyScan_eq]
  have hline : agentReadyLine = agentReadySpecLine := funext agentReadyLine_eq_spec
  rw [← hline]
  congr 1
  rw [List.map_reverse, List.filter_reverse]

theorem noDouble_cons_tail {q : Char → Bool} {a : Char} {l : List Char}
    (h : noDouble q (a :: l) = true) : noDouble q l = true := by
  simp only [noDouble, Bool.and_eq_true] at h
  exact h.2

theorem noDouble_cons_pair {q : Char → Bool} {a b : Char} {l : List Char}
    (h : noDouble q (a :: l) = true) (hb : l.head? = some b) :
    (q a && q b) = false := by
  simp only [noDouble, Bool.and_eq_true] at h
  rcases h with ⟨h1, _⟩
  rw [hb] at h1
  have h2 : (!(q a && q b)) = true := h1
  cases hq : (q a && q b)
  · rfl
  · rw [hq] at h2
    exact absurd h2 (by decide)

theorem noDouble_cons_of {q : Char → Bool} {a : Char} {l : List Char}
    (h1 : ∀ b, l.head? = some b → (q a && q b) = false)
    (h2 : noDouble q l = true) : noDouble q (a :: l) = true := by
  simp only [noDouble, Bool.and_eq_true]
  refine ⟨?_, h2⟩
  cases hl : l.head? with
  | none => rfl
  | some b =>
    have h3 := h1 b hl
    show (!(q a && q b)) = true
    rw [h3]
    rfl

theorem mem_collapseRunsAux {p : Char → Bool} {r : Char} {b : Bool}
    {l : List Char} {c : Char} (h : c ∈ collapseRunsAux p r b l) :
    c = r ∨ (c ∈ l ∧ p c = false) := by
  induction l generalizing b with
  | nil => simp [collapseRunsAux] at h
  | cons a rest ih =>
    simp only [collapseRunsAux] at h
    by_cases hp : p a = true
    · rw [if_pos hp] at h
      cases b with
      | true =>
        rcases ih (h := by simpa using h) with h1 | ⟨h1, h2⟩
        · exact Or.inl h1
        · exact Or.inr ⟨List.mem_cons_of_mem _ h1, h2⟩
      | false =>
        simp only [Bool.false_eq_true, if_false] at h
        rcases List.mem_cons.mp h with h1 | h1
        · exact Or.inl h1
        · rcases ih (h := h1) with h2 | ⟨h2, h3⟩
          · exact Or.inl h2
          · exact Or.inr ⟨List.mem_cons_of_mem _ h2, h3⟩
    · rw [if_neg hp] at h
      rcases List.mem_cons.mp h with h1 | h1
      · subst h1
        exact Or.inr ⟨List.mem_cons_self _ _, by simpa using hp⟩
      · rcases ih (h := h1) with h2 | ⟨h2, h3⟩
        · exact Or.inl h2
        · exact Or.inr ⟨List.mem_cons_of_mem _ h2, h3⟩

theorem head_collapseRunsAux_true {p : Char → Bool} {r : Char} {l : List Char}
    {x : Char} (h : (collapseRunsAux p r true l).head? = some x) : p x = false := by
  induction l with
  | nil => simp [collapseRunsAux] at h
  | cons a rest ih =>
    simp only [collapseRunsAux] at h
    by_cases hp : p a = true
    · rw [if_pos hp] at h
      simp only [if_true] at h
      exact ih h
    · rw [if_neg hp] at h
      simp only [List.head?_cons, Option.some.injEq] at h
      subst h
      simpa using hp

theorem head_collapseRunsAux_false {p : Char → Bool} {r : Char} {l : List Char}
    {x : Char} (h : (collapseRunsAux p r false l).head? = some x) :
    x = r ∨ l.head? = some x := by
  cases l with
  | nil => simp [collapseRunsAux] at h
  | cons a rest =>
    simp only [collapseRunsAux] at h
    by_cases hp : p a = true
    · rw [if_pos hp] at h
      simp only [Bool.false_eq_true, if_false, List.head?_cons,
        Option.some.injEq] at h
      exact Or.inl h.symm
    · rw [if_neg hp] at h
      simp only [List.head?_cons, Option.some.injEq] at h
      exact Or.inr (by simp [h])

theorem noDouble_collapseRunsAux (p : Char → Bool) (r : Char) (b : Bool)
    (l : List Char) : noDouble p (collapseRunsAux p r b l) = true := by
  induction l generalizing b with
  | nil => simp [collapseRunsAux, noDouble]
  | cons a rest ih =>
    simp only [collapseRunsAux]
    by_cases hp : p a = true
    · rw [if_pos hp]
      cases b with
      | true => exact ih true
      | false =>
        simp only [Bool.false_eq_true, if_false]
        refine noDouble_cons_of ?_ (ih true)
        intro y hy
        rw [head_collapseRunsAux_true hy]
        simp
    · rw [if_neg hp]
      refine noDouble_cons_of ?_ (ih false)
      intro y _
      rw [show p a = false by simpa using hp]
      simp

theorem noDouble_collapseRunsAux_other {p q : Char → Bool} {r : Char}
    (hqr : q r = false) {l : List Char} (hnd : noDouble q l = true) (b : Bool) :
    noDouble q (collapseRunsAux p r b l) = true := by
  induction l generalizing b with
  | nil => simp [collapseRunsAux, noDouble]
  | cons a rest ih =>
    simp only [collapseRunsAux]
    by_cases hp : p a = true
    · rw [if_pos hp]
      cases b with
      | true => exact ih (noDouble_cons_tail hnd) true
      | false =>
        simp only [Bool.false_eq_true, if_false]
        refine noDouble_cons_of ?_ (ih (noDouble_cons_tail hnd) true)
        intro y _
        rw [hqr]
        simp
    · rw [if_neg hp]
      refine noDouble_cons_of ?_ (ih (noDouble_cons_tail hnd) false)
      intro y hy
      rcases head_collapseRunsAux_false hy with h1 | h1
      · subst h1
        rw [hqr]
        simp
      · exact noDouble_cons_pair hnd h1

theorem collapseRunsAux_eq_self {p : Char → Bool} {r : Char} {l : List Char}
    (h : ∀ c ∈ l, p c = false) (b : Bool) : collapseRunsAux p r b l = l := by
  induction l generalizing b with
  | nil => rfl
  | cons a rest ih =>
    simp only [collapseRunsAux]
    rw [if_neg (by simp [h a (List.mem_cons_self _ _)])]
    rw [ih (fun c hc => h c (List.mem_cons_of_mem _ hc)) false]

theorem collapseRunsAux_true_eq_false {p : Char → Bool} {r : Char} {l : List Char}
    (h : ∀ x, l.head? = some x → p x = false) :
    collapseRunsAux p r true l = collapseRunsAux p r false l := by
  cases l with
  | nil => rfl
  | cons a rest =>
    have hpa : p a = false := h a rfl
    simp [collapseRunsAux, hpa]

theorem collapseRunsAux_eq_self_of_noDouble {p : Char → Bool} {r : Char}
    (hall : ∀ c, p c = true → c = r) {l : List Char}
    (hnd : noDouble p l = true) : collapseRunsAux p r false l = l := by
  induction l with
  | nil => rfl
  | cons a rest ih =>
    simp only [collapseRunsAux]
    by_cases hp : p a = true
    · rw [if_pos hp]
      simp only [Bool.false_eq_true, if_false]
      have hhead : ∀ x, rest.head? = some x → p x = false := by
        intro x hx
        have := noDouble_cons_pair hnd hx
        rw [hp] at this
        simpa using this
      rw [collapseRunsAux_true_eq_false hhead, ih (noDouble_cons_tail hnd),
        hall a hp]
    · rw [if_neg hp, ih (noDouble_cons_tail hnd)]

theorem mem_dropTrailing {p : Char → Bool} {l : List Char} {c : Char}
    (h : c ∈ dropTrailing p l) : c ∈ l := by
  induction l with
  | nil => simp [dropTrailing] at h
  | cons a rest ih =>
    simp only [dropTrailing] at h
    split at h
    · simp at h
    · rcases List.mem_cons.mp h with h1 | h1
      · simp [h1]
      · exact List.mem_cons_of_mem _ (ih h1)

theorem head?_dropTrailing {p : Char → Bool} {l : List Char} {x : Char}
    (h : (dropTrailing p l).head? = some x) : l.head? = some x := by
  cases l with
  | nil => simp [dropTrailing] at h
  | cons a rest =>
    simp only [dropTrailing] at h
    split at h
    · simp at h
    · simp only [List.head?_cons, Option.some.injEq] at h ⊢
      exact h

theorem getLast?_dropTrailing {p : Char → Bool} {l : List Char} {x : Char}
    (h : (dropTrailing p l).getLast? = some x) : p x = false := by
  induction l with
  | nil => simp [dropTrailing] at h
  | cons a rest ih =>
    simp only [dropTrailing] at h
    split at h
    · simp at h
    · next hcond =>
      rcases hr : dropTrailing p rest with _ | ⟨y, ys⟩
      · rw [hr] at h
        simp only [List.getLast?_singleton, Option.some.injEq] at h
        subst h
        rw [hr] at hcond
        simpa using hcond
      · rw [hr] at h
        rw [List.getLast?_cons_cons] at h
        rw [hr] at ih
        exact ih h

theorem noDouble_dropTrailing {p q : Char → Bool} {l : List Char}
    (hnd : noDouble q l = true) : noDouble q (dropTrailing p l) = true := by
  induction l with
  | nil => simp [dropTrailing, noDouble]
  | cons a rest ih =>
    simp only [dropTrailing]
    split
    · simp [noDouble]
    · refine noDouble_cons_of ?_ (ih (noDouble_cons_tail hnd))
      intro b hb
      exact noDouble_cons_pair hnd (head?_dropTrailing hb)

theorem noDouble_dropWhile {q s : Char → Bool} {l : List Char}
    (hnd : noDouble q l = true) : noDouble q (l.dropWhile s) = true := by
  induction l with
  | nil => simpa using hnd
  | cons a rest ih =>
    rw [List.dropWhile_cons]
    split
    · exact ih (noDouble_cons_tail hnd)
    · exact hnd

theorem head?_dropWhile {s : Char → Bool} {l : List Char} {x : Char}
    (h : (l.dropWhile s).head? = some x) : s x = false := by
  induction l with
  | nil => simp [List.dropWhile] at h
  | cons a rest ih =>
    rw [List.dropWhile_cons] at h
    split at h
    · exact ih h
    · next hs =>
      simp only [List.head?_cons, Option.some.injEq] at h
      subst h
      simpa using hs

theorem dropWhile_eq_self_of_head {s : Char → Bool} {l : List Char}
    (h : ∀ x, l.head? = some x → s x = false) : l.dropWhile s = l := by
  cases l with
  | nil => rfl
  | cons a rest =>
    rw [List.dropWhile_cons, if_neg (by simp [h a rfl])]

theorem dropTrailing_eq_self_of_getLast {p : Char → Bool} {l : List Char}
    (h : ∀ x, l.getLast? = some x → p x = false) : dropTrailing p l = l := by
  induction l with
  | nil => rfl
  | cons a rest ih =>
    cases rest with
    | nil =>
      have hpa : p a = false := h a (by simp)
      simp [dropTrailing, hpa]
    | cons y ys =>
      have hrest : dropTrailing p (y :: ys) = y :: ys := by
        apply ih
        intro x hx
        apply h
        rw [List.getLast?_cons_cons]
        exact hx
      have hstep : dropTrailing p (a :: y :: ys) =
          if (dropTrailing p (y :: ys) = [] && p a) then []
          else a :: dropTrailing p (y :: ys) := rfl
      rw [hstep, hrest]
      simp

theorem mem_trimChars {p : Char → Bool} {l : List Char} {c : Char}
    (h : c ∈ trimChars p l) : c ∈ l :=
  List.dropWhile_subset _ (mem_dropTrailing h)

theorem noDouble_trimChars {p q : Char → Bool} {l : List Char}
    (hnd : noDouble q l = true) : noDouble q (trimChars p l) = true :=
  noDouble_dropTrailing (noDouble_dropWhile hnd)

theorem head?_trimChars {p : Char → Bool} {l : List Char} {x : Char}
    (h : (trimChars p l).head? = some x) : p x = false :=
  head?_dropWhile (head?_dropTrailing h)

theorem getLast?_trimChars {p : Char → Bool} {l : List Char} {x : Char}
    (h : (trimChars p l).getLast? = some x) : p x = false :=
  getLast?_dropTrailing h

theorem trimChars_eq_self {p : Char → Bool} {l : List Char}
    (hh : ∀ x, l.head? = some x → p x = false)
    (hl : ∀ x, l.getLast? = some x → p x = false) : trimChars p l = l := by
  unfold trimChars
  rw [dropWhile_eq_self_of_head hh, dropTrailing_eq_self_of_getLast hl]

theorem map_eq_self_of {f : Char → Char} {l : List Char}
    (h : ∀ c ∈ l, f c = c) : l.map f = l := by
  induction l with
  | nil => rfl
  | cons a rest ih =>
    rw [List.map_cons, h a (List.mem_cons_self _ _),
      ih (fun c hc => h c (List.mem_cons_of_mem _ hc))]

theorem lowerChar_eq_self_of_allowed {c : Char} (h : slugBad c = false) :
    lowerChar c = c := by
  simp only [slugBad] at h
  have hng : ¬(65 ≤ c.toNat ∧ c.toNat ≤ 90) := by
    cases hb : ((97 ≤ c.toNat && c.toNat ≤ 122) || (48 ≤ c.toNat && c.toNat ≤ 57) ||
        decide (c = '/') || decide (c = '-')) with
    | false =>
      rw [hb] at h
      exact absurd h (by decide)
    | true =>
      simp only [Bool.or_eq_true, Bool.and_eq_true, decide_eq_true_eq] at hb
      rcases hb with ((⟨h1, h2⟩ | ⟨h1, h2⟩) | h1) | h1
      · omega
      · omega
      · subst h1
        decide
      · subst h1
        decide
  simp only [lowerChar]
  rw [if_neg (by simpa using hng)]

theorem mem_collapseRuns {p : Char → Bool} {r : Char} {l : List Char} {c : Char}
    (h : c ∈ collapseRuns p r l) : c = r ∨ (c ∈ l ∧ p c = false) :=
  mem_collapseRunsAux (show c ∈ collapseRunsAux p r false l from h)

theorem noDouble_collapseRuns (p : Char → Bool) (r : Char) (l : List Char) :
    noDouble p (collapseRuns p r l) = true :=
  noDouble_collapseRunsAux p r false l

theorem noDouble_collapseRuns_other {p q : Char → Bool} {r : Char}
    (hqr : q r = false) {l : List Char} (hnd : noDouble q l = true) :
    noDouble q (collapseRuns p r l) = true :=
  noDouble_collapseRunsAux_other hqr hnd false

theorem collapseRuns_eq_self {p : Char → Bool} {r : Char} {l : List Char}
    (h : ∀ c ∈ l, p c = false) : collapseRuns p r l = l :=
  collapseRunsAux_eq_self h false

theorem collapseRuns_eq_self_of_noDouble {p : Char → Bool} {r : Char}
    (hall : ∀ c, p c = true → c = r) {l : List Char}
    (hnd : noDouble p l = true) : collapseRuns p r l = l :=
  collapseRunsAux_eq_self_of_noDouble hall hnd

theorem normalizeSlug_closed (x : List Char) :
    (∀ c ∈ normalizeSlug x, slugBad c = false) ∧
    noDouble (fun c => c = '-') (normalizeSlug x) = true ∧
    noDouble (fun c => c = '/') (normalizeSlug x) = true ∧
    (∀ c, (normalizeSlug x).head? = some c → (c = '-' || c = '/') = false) ∧
    (∀ c, (normalizeSlug x).getLast? = some c → (c = '-' || c = '/') = false) := by
  simp only [normalizeSlug]
  refine ⟨?_, ?_, ?_, ?_, ?_⟩
  · intro c hc
    have hc3 := mem_trimChars hc
    rcases mem_collapseRuns hc3 with h1 | ⟨h1, _⟩
    · subst h1
      decide
    · rcases mem_collapseRuns h1 with h2 | ⟨h2, _⟩
      · subst h2
        decide
      · rcases mem_collapseRuns h2 with h3 | ⟨_, h3⟩
        · subst h3
          decide
        · exact h3
  · exact noDouble_trimChars (noDouble_collapseRuns _ _ _)
  · exact noDouble_trimChars
      (noDouble_collapseRuns_other (by decide) (noDouble_collapseRuns _ _ _))
  · intro c hc
    exact head?_trimChars hc
  · intro c hc
    exact getLast?_trimChars hc

theorem normalizeSlug_idem (x : List Char) :
    normalizeSlug (normalizeSlug x) = normalizeSlug x := by
  obtain ⟨hall, hdash, hslash, hhead, hlast⟩ := normalizeSlug_closed x
  conv_lhs => rw [normalizeSlug]
  rw [map_eq_self_of (fun c hc => lowerChar_eq_self_of_allowed (hall c hc))]
  rw [map_eq_self_of (l := normalizeSlug x) (fun c hc => by
    have h := hall c hc
    by_cases hc' : c = '_'
    · subst hc'
      exact absurd h (by decide)
    · simp [hc'])]
  rw [map_eq_self_of (l := normalizeSlug x) (fun c hc => by
    have h := hall c hc
    by_cases hc' : c = ' '
    · subst hc'
      exact absurd h (by decide)
    · simp [hc'])]
  rw [collapseRuns_eq_self hall]
  rw [collapseRuns_eq_self_of_noDouble (fun c h => by simpa using h) hslash]
  rw [collapseRuns_eq_self_of_noDouble (fun c h => by simpa using h) hdash]
  exact trimChars_eq_self hhead hlast

/-- C6: whenever Slugify succeeds its result is a fixed point — a
second Slugify returns it unchanged — and the result consists only of
lowercase letters, digits, slashes and dashes, has no double dash, no
double slash, no leading or trailing dash or slash, and is non-empty;
Slugify errors exactly when the normalized string is empty. -/
theorem Slugify_idempotent_closed (x r : List Char) :
    (Slugify x = some r →
      Slugify r = some r ∧
      r.all (fun c => !slugBad c) = true ∧
      noDouble (fun c => c = '-') r = true ∧
      noDouble (fun c => c = '/') r = true ∧
      (∀ c, r.head? = some c → (c = '-' || c = '/') = false) ∧
      (∀ c, r.getLast? = some c → (c = '-' || c = '/') = false) ∧
      r ≠ []) ∧
    (Slugify x = none ↔ normalizeSlug x = []) := by
  constructor
  · intro h
    have hx : normalizeSlug x = r ∧ r ≠ [] := by
      simp only [Slugify] at h
      by_cases hne : normalizeSlug x = []
      · rw [if_pos hne] at h
        exact absurd h (by simp)
      · rw [if_neg hne] at h
        have heq := Option.some.inj h
        exact ⟨heq, heq ▸ hne⟩
    obtain ⟨hxr, hne⟩ := hx
    obtain ⟨hall, hdash, hslash, hhead, hlast⟩ := normalizeSlug_closed x
    rw [hxr] at hall hdash hslash hhead hlast
    refine ⟨?_, ?_, hdash, hslash, hhead, hlast, hne⟩
    · simp only [Slugify]
      have hfix : normalizeSlug r = r := by
        conv_lhs => rw [← hxr]
        rw [normalizeSlug_idem x, hxr]
      rw [hfix, if_neg hne]
    · rw [List.all_eq_true]
      intro c hc
      simp [hall c hc]
  · simp only [Slugify]
    constructor
    · intro h
      by_contra hne
      rw [if_neg hne] at h
      exact absurd h (by simp)
    · intro h
      rw [if_pos h]

theorem Slugify_idempotent_closed_witness :
    Slugify "My Feature!".data = some "my-feature".data ∧
    Slugify "my-feature".data = some "my-feature".data ∧
    "my-feature".data ≠ [] :=
  ⟨by decide,
   ((Slugify_idempotent_closed "My Feature!".data "my-feature".data).1
      (by decide)).1,
   ((Slugify_idempotent_closed "My Feature!".data "my-feature".data).1
      (by decide)).2.2.2.2.2.2⟩

end Sprout
